import Mathlib

/-!
# Verification of `nlp_ar_prep.py` (Arabic NLP preprocessing pipeline)

Shallow embedding of the pure core of `src/nlp_ar_prep.py`:

* `normalize_arabic` — character-level Arabic normalization (diacritics and
  tatweel removal, alef/ya/waw unification, optional ta-marbuta folding);
* `tokenize_ar` — maximal runs of Arabic letters, `re.findall` over
  `[ء-غف-ي]+`;
* `build_stopwords` / `remove_stopwords` — normalization-aware stopword set
  construction and filtering;
* `most_common` — `collections.Counter(...).most_common(k)` (count-descending,
  ties kept in first-insertion order, i.e. first appearance in the input);
* `score_ngrams` — the bigram PMI scorer the script obtains from
  `nltk.collocations.BigramCollocationFinder.from_words` /
  `BigramAssocMeasures.pmi` / `score_ngrams`.  NLTK's `from_words` counts every
  token once (`word_fd`, total `N = number of tokens`) and every adjacent pair
  once (`bigram_fd`); `score_ngram` passes `(n_ii, (n_ix, n_xi), n_all = N)` to
  `pmi`, which returns `log2(n_ii * n_all) - log2(n_ix * n_xi)`, i.e.
  `log2 ((n_ii * N) / (n_ix * n_xi))`; `score_ngrams` returns
  `sorted(..., key=lambda t: (-t[1], t[0]))`.  Because `log2` is strictly
  monotone and injective on positives, the embedding stores the exact rational
  argument of `log2` as the score; sorting by descending score coincides with
  sorting by descending argument, and equality of scores with equality of
  arguments.
* `extract_dates` / `extract_numbers_excluding_dates` — direct matchers for
  the three concrete regexes `DATE_ISO`, `DATE_SL`, `NUM_RE` with Python
  `re.finditer` semantics (left-to-right scan, non-overlapping matches,
  word-boundary checks, the pattern-specific backtracking behaviour),
  parameterized over the interpreter's Unicode character classification
  (`\d` = category Nd, `\b` word characters), which is external runtime
  data of the Python interpreter and fixed only on ASCII.

Machine integers do not occur (Python ints are unbounded); floating point
enters only through `log2`, which is modelled exactly as above.
-/

namespace NlpArPrep

/-! ## Normalizer (`normalize_arabic`, source lines 45–59)

`AR_DIACRITICS = [ؗ-ًؚ-ْ]`, `AR_TATWEEL = ـ`, then the
single-character substitutions `[إأآا]→ا`, `ى→ي`, `[ؤ]→و`, `[ئ]→ي` and,
when `convert_ta_marbuta` is set, `ة→ه`.  Each `re.sub` pattern is a
single-character class, so every pass is a character-wise `filter` or `map`. -/

def isDiacritic (c : Char) : Bool :=
  (0x617 ≤ c.toNat && c.toNat ≤ 0x61A) || (0x64B ≤ c.toNat && c.toNat ≤ 0x652)

/-- The tatweel / kashida character U+0640. -/
def tatweel : Char := 'ـ'

/-- `re.sub(r"[إأآا]", "ا", ·)` character-wise. -/
def subAlef (c : Char) : Char :=
  if c = 'إ' || c = 'أ' || c = 'آ' || c = 'ا' then 'ا' else c

/-- `re.sub(r"ى", "ي", ·)` character-wise. -/
def subAlefMaksura (c : Char) : Char := if c = 'ى' then 'ي' else c

/-- `re.sub(r"[ؤ]", "و", ·)` character-wise. -/
def subWawHamza (c : Char) : Char := if c = 'ؤ' then 'و' else c

/-- `re.sub(r"[ئ]", "ي", ·)` character-wise. -/
def subYaHamza (c : Char) : Char := if c = 'ئ' then 'ي' else c

/-- `re.sub(r"ة", "ه", ·)` character-wise. -/
def subTaMarbuta (c : Char) : Char := if c = 'ة' then 'ه' else c

/-- The normalization pipeline on the character list of the text, pass by pass
in the order of the source. -/
def normList (l : List Char) (convert_ta_marbuta : Bool) : List Char :=
  let t1 := l.filter (fun c => !isDiacritic c)
  let t2 := t1.filter (fun c => c != tatweel)
  let t3 := t2.map subAlef
  let t4 := t3.map subAlefMaksura
  let t5 := t4.map subWawHamza
  let t6 := t5.map subYaHamza
  if convert_ta_marbuta then t6.map subTaMarbuta else t6

/-- `normalize_arabic(text, convert_ta_marbuta)`. -/
def normalize_arabic (text : String) (convert_ta_marbuta : Bool := true) : String :=
  ⟨normList text.data convert_ta_marbuta⟩

/-- Characters surviving the two removal passes. -/
def keepChar (c : Char) : Bool := !isDiacritic c && (c != tatweel)

/-- The composite of the substitution passes on a single character. -/
def normChar (p : Bool) (c : Char) : Char :=
  if p then subTaMarbuta (subYaHamza (subWawHamza (subAlefMaksura (subAlef c))))
  else subYaHamza (subWawHamza (subAlefMaksura (subAlef c)))

theorem normList_cons (p : Bool) (c : Char) (t : List Char) :
    normList (c :: t) p =
      if keepChar c then normChar p c :: normList t p else normList t p := by
  by_cases h1 : isDiacritic c = true
  · simp [normList, keepChar, List.filter_cons, h1]
  · by_cases h2 : (c != tatweel) = true
    · cases p <;> simp [normList, keepChar, normChar, List.filter_cons, h1, h2]
    · simp [normList, keepChar, List.filter_cons, h1, h2]

theorem normList_eq (l : List Char) (p : Bool) :
    normList l p = (l.filter keepChar).map (normChar p) := by
  induction l with
  | nil => cases p <;> simp [normList]
  | cons c t ih =>
      rw [normList_cons]
      by_cases h : keepChar c <;> simp [h, List.filter_cons, ih]

/-- A character is either left unchanged by the substitution passes or mapped
to one of the four target letters. -/
theorem normChar_cases (p : Bool) (c : Char) :
    normChar p c = c ∨ normChar p c ∈ ['ا', 'ي', 'و', 'ه'] := by
  cases p <;>
    · unfold normChar subAlef subAlefMaksura subWawHamza subYaHamza subTaMarbuta
      split_ifs <;> simp_all

theorem normChar_idem (p : Bool) (c : Char) :
    normChar p (normChar p c) = normChar p c := by
  rcases normChar_cases p c with h | h
  · rw [h]; exact h
  · simp only [List.mem_cons, List.not_mem_nil, or_false] at h
    rcases h with h | h | h | h <;> rw [h] <;> cases p <;> decide

theorem keepChar_normChar (p : Bool) (c : Char) (h : keepChar c = true) :
    keepChar (normChar p c) = true := by
  rcases normChar_cases p c with hc | hc
  · rwa [hc]
  · simp only [List.mem_cons, List.not_mem_nil, or_false] at hc
    rcases hc with hc | hc | hc | hc <;> rw [hc] <;> decide

theorem normList_idem (l : List Char) (p : Bool) :
    normList (normList l p) p = normList l p := by
  simp only [normList_eq]
  rw [List.filter_map, List.map_map]
  rw [List.filter_eq_self.mpr
    (fun c hc => by
      simpa using keepChar_normChar p c (List.of_mem_filter hc))]
  exact List.map_congr_left (fun c _ => normChar_idem p c)

/-- C7: normalization is idempotent — for every string `s` and every value `p`
of the ta-marbuta policy flag, `normalize(normalize(s, p), p) = normalize(s, p)`. -/
theorem normalize_arabic_idempotent (s : String) (p : Bool) :
    normalize_arabic (normalize_arabic s p) p = normalize_arabic s p := by
  unfold normalize_arabic
  exact congrArg String.mk (normList_idem s.data p)

/-! ## Tokenizer (`tokenize_ar`, source lines 62–67)

`AR_LETTERS = [ء-غف-ي]+`; `re.findall` returns the
maximal runs of characters of that class, left to right. -/

def isArLetter (c : Char) : Bool :=
  (0x621 ≤ c.toNat && c.toNat ≤ 0x63A) || (0x641 ≤ c.toNat && c.toNat ≤ 0x64A)

/-- Left-to-right scan collecting maximal runs of Arabic letters; `acc` holds
the (reversed) letters of the run currently being read. -/
def arRunsAux : List Char → List Char → List (List Char)
  | [], acc => if acc.isEmpty then [] else [acc.reverse]
  | c :: rest, acc =>
      if isArLetter c then
        arRunsAux rest (c :: acc)
      else
        (if acc.isEmpty then [] else [acc.reverse]) ++ arRunsAux rest []

/-- `tokenize_ar(text)`: `re.findall(AR_LETTERS, text)`. -/
def tokenize_ar (text : String) : List String :=
  (arRunsAux text.data []).map (fun cs => ⟨cs⟩)

theorem arRunsAux_forall (l : List Char) :
    ∀ acc, (∀ c ∈ acc, isArLetter c = true) →
      ∀ r ∈ arRunsAux l acc, r ≠ [] ∧ ∀ c ∈ r, isArLetter c = true := by
  induction l with
  | nil =>
      intro acc hacc r hr
      by_cases h : acc.isEmpty <;> simp [arRunsAux, h] at hr
      subst hr
      rcases acc with _ | ⟨a, t⟩
      · simp at h
      · refine ⟨by simp, ?_⟩
        intro c hc
        exact hacc c (List.mem_reverse.mp hc)
  | cons c rest ih =>
      intro acc hacc r hr
      by_cases h : isArLetter c
      · rw [arRunsAux, if_pos h] at hr
        refine ih (c :: acc) ?_ r hr
        intro d hd
        rcases List.mem_cons.mp hd with rfl | hd
        · exact h
        · exact hacc d hd
      · rw [arRunsAux, if_neg h] at hr
        rcases List.mem_append.mp hr with hr | hr
        · by_cases he : acc.isEmpty <;> simp [he] at hr
          subst hr
          rcases acc with _ | ⟨a, t⟩
          · simp at he
          · refine ⟨by simp, ?_⟩
            intro d hd
            exact hacc d (List.mem_reverse.mp hd)
        · exact ih [] (by simp) r hr

/-- C9: every token produced by the tokenizer is a non-empty string whose
characters all lie in U+0621–U+063A or U+0641–U+064A; in particular the
tatweel U+0640 (which sits between the two ranges) never occurs in a token. -/
theorem tokenize_ar_tokens_arabic (s : String) (t : String) (ht : t ∈ tokenize_ar s) :
    t ≠ "" ∧ ∀ c ∈ t.data, isArLetter c = true ∧ c ≠ tatweel := by
  obtain ⟨cs, hcs, rfl⟩ := List.mem_map.mp ht
  obtain ⟨hne, hall⟩ := arRunsAux_forall s.data [] (by simp) cs hcs
  refine ⟨by simpa [String.ext_iff] using hne, ?_⟩
  intro c hc
  have h := hall c hc
  refine ⟨h, ?_⟩
  intro hcq
  subst hcq
  simp [isArLetter, tatweel] at h

/-- Witness for C9 at a concrete input. -/
theorem tokenize_ar_tokens_arabic_witness :
    ("اب" ∈ tokenize_ar "اب 12")
    ∧ ("اب" ≠ "" ∧ ∀ c ∈ ("اب" : String).data, isArLetter c = true ∧ c ≠ tatweel) :=
  ⟨by decide, tokenize_ar_tokens_arabic "اب 12" "اب" (by decide)⟩

/-! ## Stopword set builder (`build_stopwords`, source lines 70–78)

`AR_STOPWORDS_RAW` is NLTK's Arabic stopword lexicon, external data loaded at
startup; it is a parameter `base` here.  `extra.split(",")` keeps empty
pieces; each piece is `strip()`ped, empty results are discarded by the
`if w.strip()` guard, and the survivors are normalized with the same policy. -/

/-- Python `str.split(",")` on the character list: split at every comma,
keeping empty pieces. -/
def pySplit : List Char → List (List Char)
  | [] => [[]]
  | c :: t =>
      if c = ',' then [] :: pySplit t
      else
        match pySplit t with
        | [] => [[c]]
        | piece :: rest => (c :: piece) :: rest

/-- `s.split(",")` for strings. -/
def pySplitComma (s : String) : List String := (pySplit s.data).map (fun cs => ⟨cs⟩)

/-- The Unicode whitespace characters stripped by CPython's `str.strip()`
(`Py_UNICODE_ISSPACE`): U+0009–U+000D, U+001C–U+001F, U+0020, U+0085,
U+00A0, U+1680, U+2000–U+200A, U+2028, U+2029, U+202F, U+205F, U+3000. -/
def isPySpace (c : Char) : Bool :=
  (0x09 ≤ c.toNat && c.toNat ≤ 0x0D) || (0x1C ≤ c.toNat && c.toNat ≤ 0x1F) ||
    c.toNat = 0x20 || c.toNat = 0x85 || c.toNat = 0xA0 || c.toNat = 0x1680 ||
    (0x2000 ≤ c.toNat && c.toNat ≤ 0x200A) || c.toNat = 0x2028 || c.toNat = 0x2029 ||
    c.toNat = 0x202F || c.toNat = 0x205F || c.toNat = 0x3000

/-- Python `str.strip()`: drop leading and trailing whitespace. -/
def pyStrip (s : String) : String :=
  ⟨((s.data.dropWhile isPySpace).reverse.dropWhile isPySpace).reverse⟩

/-- `build_stopwords(convert_ta_marbuta, extra)` with the external base
lexicon as a parameter. -/
def build_stopwords (base : Finset String) (convert_ta_marbuta : Bool) (extra : String) :
    Finset String :=
  let baseN := base.image (fun w => normalize_arabic w convert_ta_marbuta)
  let pieces : List String := if extra = "" then [] else pySplitComma extra
  let extra_items := ((pieces.map pyStrip).filter (fun w => w != "")).toFinset
  let extra_norm := extra_items.image (fun w => normalize_arabic w convert_ta_marbuta)
  baseN ∪ extra_norm

theorem mem_build_stopwords (base : Finset String) (p : Bool) (extra : String) (s : String) :
    s ∈ build_stopwords base p extra ↔
      (∃ w ∈ base, s = normalize_arabic w p) ∨
      (∃ piece ∈ pySplitComma extra, pyStrip piece ≠ "" ∧
        s = normalize_arabic (pyStrip piece) p) := by
  have key : ∀ pieces : List String,
      (s ∈ base.image (fun w => normalize_arabic w p) ∪
          (((pieces.map pyStrip).filter (fun w => w != "")).toFinset.image
            (fun w => normalize_arabic w p))) ↔
        ((∃ w ∈ base, s = normalize_arabic w p) ∨
          (∃ piece ∈ pieces, pyStrip piece ≠ "" ∧
            s = normalize_arabic (pyStrip piece) p)) := by
    intro pieces
    simp only [Finset.mem_union, Finset.mem_image, List.mem_toFinset, List.mem_filter,
      List.mem_map, bne_iff_ne, ne_eq]
    constructor
    · rintro (⟨w, hw, hs⟩ | ⟨a, ⟨⟨x, hx, rfl⟩, hne⟩, hs⟩)
      · exact Or.inl ⟨w, hw, hs.symm⟩
      · exact Or.inr ⟨x, hx, hne, hs.symm⟩
    · rintro (⟨w, hw, hs⟩ | ⟨x, hx, hne, hs⟩)
      · exact Or.inl ⟨w, hw, hs.symm⟩
      · exact Or.inr ⟨pyStrip x, ⟨⟨x, hx, rfl⟩, hne⟩, hs.symm⟩
  unfold build_stopwords
  by_cases he : extra = ""
  · subst he
    rw [if_pos rfl, key []]
    have h1 : pyStrip "" = "" := rfl
    have h0 : pySplitComma "" = [""] := rfl
    simp [h0, h1]
  · rw [if_neg he]
    exact key (pySplitComma extra)

/-- C6: `buildStopwords` returns exactly the union of the normalized base
lexicon entries and the normalized, trimmed, non-empty comma-separated pieces
of `extra` (empty pieces silently discarded), with set semantics. -/
theorem build_stopwords_members (base : Finset String) (p : Bool) (extra : String)
    (s : String) :
    s ∈ build_stopwords base p extra ↔
      (∃ w ∈ base, s = normalize_arabic w p) ∨
      (∃ piece ∈ pySplitComma extra, pyStrip piece ≠ "" ∧
        s = normalize_arabic (pyStrip piece) p) :=
  mem_build_stopwords base p extra s

/-- C10: every element of the stopword set is a fixed point of normalization
under the policy the set was built with. -/
theorem build_stopwords_fixed_points (base : Finset String) (p : Bool) (extra : String)
    (s : String) (hs : s ∈ build_stopwords base p extra) :
    normalize_arabic s p = s := by
  rcases (mem_build_stopwords base p extra s).mp hs with ⟨w, _, rfl⟩ | ⟨w, _, _, rfl⟩ <;>
    exact normalize_arabic_idempotent _ p

/-- Witness for C10 at a concrete input. -/
theorem build_stopwords_fixed_points_witness :
    ("ab" ∈ build_stopwords ∅ true "ab") ∧ normalize_arabic "ab" true = "ab" :=
  ⟨by decide, build_stopwords_fixed_points ∅ true "ab" "ab" (by decide)⟩

/-! ## Stopword/length filter (`remove_stopwords`, source lines 81–83) -/

/-- `remove_stopwords(tokens, stop_set, min_len)`:
`[t for t in tokens if t not in stop_set and len(t) >= min_len]`. -/
def remove_stopwords (tokens : List String) (stop_set : Finset String)
    (min_len : Int := 2) : List String :=
  tokens.filter (fun t => decide (t ∉ stop_set ∧ min_len ≤ (t.length : Int)))

/-- C4: the filter returns an order-preserving subsequence without
deduplication, keeping a token iff it is not a stopword and at least
`min_len` characters long; `min_len ≤ 0` disables the length check. -/
theorem remove_stopwords_spec (ts : List String) (stop : Finset String) (m : Int) :
    (remove_stopwords ts stop m).Sublist ts
    ∧ (∀ t : String, (remove_stopwords ts stop m).count t =
        if t ∉ stop ∧ m ≤ (t.length : Int) then ts.count t else 0)
    ∧ (m ≤ 0 → remove_stopwords ts stop m = ts.filter (fun t => decide (t ∉ stop))) := by
  refine ⟨List.filter_sublist ts, ?_, ?_⟩
  · intro t
    by_cases h : t ∉ stop ∧ m ≤ (t.length : Int)
    · rw [if_pos h]
      exact List.count_filter (by simpa using h)
    · rw [if_neg h]
      refine List.count_eq_zero_of_not_mem ?_
      intro hmem
      exact h (by simpa using (List.mem_filter.mp hmem).2)
  · intro hm
    apply List.filter_congr
    intro t _
    have hlen : m ≤ (t.length : Int) := le_trans hm (Int.ofNat_nonneg t.length)
    simp [hlen]

/-- Witness for C4 at a concrete input. -/
theorem remove_stopwords_spec_witness :
    ((-1 : Int) ≤ 0)
    ∧ remove_stopwords ["ab", "c"] {"ab"} (-1) =
        List.filter (fun t => decide (t ∉ ({"ab"} : Finset String))) ["ab", "c"] :=
  ⟨by decide, (remove_stopwords_spec ["ab", "c"] {"ab"} (-1)).2.2 (by decide)⟩

/-! ## Generic list facts used for sorting-stability arguments -/

theorem pair_sublist_total {α : Type*} {a b : α} :
    ∀ {l : List α}, a ∈ l → b ∈ l → a ≠ b → List.Sublist [a, b] l ∨ List.Sublist [b, a] l := by
  intro l
  induction l with
  | nil => intro h; simp at h
  | cons c rest ih =>
      intro ha hb hne
      rcases List.mem_cons.mp ha with rfl | ha2
      · have hb' : b ∈ rest := by
          rcases List.mem_cons.mp hb with rfl | hb2
          · exact absurd rfl hne
          · exact hb2
        exact Or.inl (List.Sublist.cons₂ a (List.singleton_sublist.mpr hb'))
      · rcases List.mem_cons.mp hb with rfl | hb2
        · exact Or.inr (List.Sublist.cons₂ b (List.singleton_sublist.mpr ha2))
        · rcases ih ha2 hb2 hne with h | h
          · exact Or.inl (h.cons c)
          · exact Or.inr (h.cons c)

theorem pair_sublist_antisymm {α : Type*} {a b : α} :
    ∀ {l : List α}, l.Nodup → List.Sublist [a, b] l → List.Sublist [b, a] l → a = b := by
  intro l
  induction l with
  | nil => intro _ h; simp at h
  | cons c rest ih =>
      intro hnd h1 h2
      have hc : c ∉ rest := (List.nodup_cons.mp hnd).1
      have hrest : rest.Nodup := (List.nodup_cons.mp hnd).2
      cases h1 with
      | cons _ h1' =>
          cases h2 with
          | cons _ h2' => exact ih hrest h1' h2'
          | cons₂ _ h2' => exact absurd (h1'.subset (by simp)) hc
      | cons₂ _ h1' =>
          cases h2 with
          | cons _ h2' => exact absurd (h2'.subset (by simp)) hc
          | cons₂ _ h2' => rfl

/-! ## Frequency counter (`Counter(no_stop).most_common(args.topk)`, line 181)

`collections.Counter` records keys in first-encounter order, and
`most_common(k)` returns the `k` entries of largest count; `heapq.nlargest` /
`sorted(..., reverse=True)` are stable, so equal counts keep key-insertion
order (= first appearance in the input).  Modelled as a stable insertion sort
of the counter's association list by descending count, then `take`.
`k` is a Python int and may be negative, hence `Int`. -/

def firstDedupAux : List String → List String → List String
  | [], _ => []
  | a :: l, seen =>
      if a ∈ seen then firstDedupAux l seen else a :: firstDedupAux l (a :: seen)

/-- The distinct tokens of `l` in order of first appearance
(the key order of `collections.Counter(l)`). -/
def firstDedup (l : List String) : List String := firstDedupAux l []

/-- `Counter(ts)` as an association list in key-insertion order. -/
def counterItems (ts : List String) : List (String × Nat) :=
  (firstDedup ts).map (fun w => (w, ts.count w))

/-- Count-descending comparison (`key=_itemgetter(1)`, largest first). -/
def countGE (a b : String × Nat) : Prop := b.2 ≤ a.2

instance : DecidableRel countGE := fun a b => (inferInstance : Decidable (b.2 ≤ a.2))

instance : IsTotal (String × Nat) countGE := ⟨fun a b => Nat.le_total b.2 a.2⟩

instance : IsTrans (String × Nat) countGE := ⟨fun _ _ _ h1 h2 => Nat.le_trans h2 h1⟩

/-- `Counter(ts).most_common(k)`. -/
def most_common (ts : List String) (k : Int) : List (String × Nat) :=
  (List.insertionSort countGE (counterItems ts)).take k.toNat

theorem firstDedupAux_mem :
    ∀ {l seen : List String} {a : String}, a ∈ firstDedupAux l seen → a ∈ l ∧ a ∉ seen := by
  intro l
  induction l with
  | nil => intro seen a h; simp [firstDedupAux] at h
  | cons c t ih =>
      intro seen a h
      rw [firstDedupAux] at h
      by_cases hc : c ∈ seen
      · rw [if_pos hc] at h
        exact ⟨List.mem_cons_of_mem c (ih h).1, (ih h).2⟩
      · rw [if_neg hc] at h
        rcases List.mem_cons.mp h with rfl | h2
        · exact ⟨List.mem_cons_self a t, hc⟩
        · refine ⟨List.mem_cons_of_mem c (ih h2).1, ?_⟩
          intro hmem
          exact (ih h2).2 (List.mem_cons_of_mem c hmem)

theorem mem_firstDedupAux :
    ∀ {l seen : List String} {a : String}, a ∈ l → a ∉ seen → a ∈ firstDedupAux l seen := by
  intro l
  induction l with
  | nil => intro seen a h; simp at h
  | cons c t ih =>
      intro seen a ha hseen
      rw [firstDedupAux]
      by_cases hc : c ∈ seen
      · rw [if_pos hc]
        rcases List.mem_cons.mp ha with rfl | ha2
        · exact absurd hc hseen
        · exact ih ha2 hseen
      · rw [if_neg hc]
        rcases List.mem_cons.mp ha with rfl | ha2
        · exact List.mem_cons_self a _
        · by_cases hac : a = c
          · subst hac; exact List.mem_cons_self a _
          · exact List.mem_cons_of_mem c
              (ih ha2 (fun hmem => (List.mem_cons.mp hmem).elim hac hseen))

theorem firstDedupAux_pairwise :
    ∀ (l seen : List String),
      (firstDedupAux l seen).Pairwise (fun a b => l.indexOf a < l.indexOf b) := by
  intro l
  induction l with
  | nil => intro seen; simp [firstDedupAux]
  | cons c t ih =>
      intro seen
      rw [firstDedupAux]
      by_cases h : c ∈ seen
      · rw [if_pos h]
        refine List.Pairwise.imp_of_mem ?_ (ih seen)
        intro a b hamem hbmem hab
        have ha := firstDedupAux_mem hamem
        have hb := firstDedupAux_mem hbmem
        have hac : c ≠ a := fun e => ha.2 (e ▸ h)
        have hbc : c ≠ b := fun e => hb.2 (e ▸ h)
        rw [List.indexOf_cons_ne _ hac, List.indexOf_cons_ne _ hbc]
        exact Nat.succ_lt_succ hab
      · rw [if_neg h]
        refine List.pairwise_cons.mpr ⟨?_, ?_⟩
        · intro b hbmem
          have hb := firstDedupAux_mem hbmem
          have hbc : c ≠ b := fun e => hb.2 (by simp [e])
          rw [List.indexOf_cons_self, List.indexOf_cons_ne _ hbc]
          exact Nat.succ_pos _
        · refine List.Pairwise.imp_of_mem ?_ (ih (c :: seen))
          intro a b hamem hbmem hab
          have ha := firstDedupAux_mem hamem
          have hb := firstDedupAux_mem hbmem
          have hac : c ≠ a := fun e => ha.2 (by simp [e])
          have hbc : c ≠ b := fun e => hb.2 (by simp [e])
          rw [List.indexOf_cons_ne _ hac, List.indexOf_cons_ne _ hbc]
          exact Nat.succ_lt_succ hab

theorem mem_firstDedup {a : String} {ts : List String} : a ∈ firstDedup ts ↔ a ∈ ts :=
  ⟨fun h => (firstDedupAux_mem h).1, fun h => mem_firstDedupAux h (by simp)⟩

theorem firstDedup_pairwise (ts : List String) :
    (firstDedup ts).Pairwise (fun a b => ts.indexOf a < ts.indexOf b) :=
  firstDedupAux_pairwise ts []

theorem counterItems_pairwise (ts : List String) :
    (counterItems ts).Pairwise (fun a b => ts.indexOf a.1 < ts.indexOf b.1) := by
  unfold counterItems
  rw [List.pairwise_map]
  exact firstDedup_pairwise ts

theorem counterItems_nodup (ts : List String) : (counterItems ts).Nodup :=
  (counterItems_pairwise ts).imp
    (fun h e => by subst e; exact absurd h (lt_irrefl _))

theorem mem_counterItems {e : String × Nat} {ts : List String} :
    e ∈ counterItems ts ↔ e.1 ∈ ts ∧ e.2 = ts.count e.1 := by
  unfold counterItems
  rw [List.mem_map]
  constructor
  · rintro ⟨w, hw, rfl⟩
    exact ⟨mem_firstDedup.mp hw, rfl⟩
  · rintro ⟨h1, h2⟩
    exact ⟨e.1, mem_firstDedup.mpr h1, by rw [← h2]⟩

/-- C5: `most_common` counts occurrences, returns the `k` largest-count
entries sorted by count descending with ties in first-appearance order; its
length is `min k (number of distinct tokens)` for `k ≥ 0`, every returned
count dominates every non-returned token's count, `k ≤ 0` yields `[]`,
and empty input yields `[]`. -/
theorem most_common_spec (ts : List String) (k : Int) :
    (k ≤ 0 → most_common ts k = [])
    ∧ (0 ≤ k → (most_common ts k).length = min k.toNat (firstDedup ts).length)
    ∧ most_common [] k = []
    ∧ (∀ e ∈ most_common ts k, e.2 = ts.count e.1)
    ∧ (most_common ts k).Pairwise
        (fun a b => b.2 ≤ a.2 ∧ (a.2 = b.2 → ts.indexOf a.1 < ts.indexOf b.1))
    ∧ (∀ e ∈ most_common ts k, ∀ w ∈ ts, w ∉ (most_common ts k).map Prod.fst →
        ts.count w ≤ e.2) := by
  have hperm := List.perm_insertionSort countGE (counterItems ts)
  have hsorted : (List.insertionSort countGE (counterItems ts)).Pairwise countGE :=
    List.sorted_insertionSort countGE (counterItems ts)
  have hnodup : (List.insertionSort countGE (counterItems ts)).Nodup :=
    hperm.nodup_iff.mpr (counterItems_nodup ts)
  have hstab : (List.insertionSort countGE (counterItems ts)).Pairwise
      (fun a b => a.2 = b.2 → ts.indexOf a.1 < ts.indexOf b.1) := by
    rw [List.pairwise_iff_forall_sublist]
    intro a b hsub htie
    have hne : a ≠ b := by
      rintro rfl
      exact (List.nodup_iff_sublist.mp hnodup a) hsub
    have ha : a ∈ counterItems ts := hperm.subset (hsub.subset (by simp))
    have hb : b ∈ counterItems ts := hperm.subset (hsub.subset (by simp))
    rcases pair_sublist_total ha hb hne with hab | hba
    · exact List.pairwise_iff_forall_sublist.mp (counterItems_pairwise ts) hab
    · have hge : countGE b a := le_of_eq htie
      have : List.Sublist [b, a] (List.insertionSort countGE (counterItems ts)) :=
        List.pair_sublist_insertionSort hge hba
      exact absurd (pair_sublist_antisymm hnodup hsub this) hne
  refine ⟨?_, ?_, ?_, ?_, ?_, ?_⟩
  · intro hk
    simp [most_common, Int.toNat_of_nonpos hk]
  · intro _
    have hlen : (List.insertionSort countGE (counterItems ts)).length =
        (firstDedup ts).length := by
      rw [hperm.length_eq]
      simp [counterItems]
    simp [most_common, List.length_take, hlen]
  · simp [most_common, counterItems, firstDedup, firstDedupAux]
  · intro e he
    have : e ∈ counterItems ts :=
      hperm.subset ((List.take_sublist _ _).subset he)
    exact (mem_counterItems.mp this).2
  · exact ((hsorted.and hstab).imp (fun h => h)).sublist (List.take_sublist _ _)
  · intro e he w hw hnot
    have hwitem : (w, ts.count w) ∈ counterItems ts := mem_counterItems.mpr ⟨hw, rfl⟩
    have hwsorted : (w, ts.count w) ∈ List.insertionSort countGE (counterItems ts) :=
      hperm.mem_iff.mpr hwitem
    rw [← List.take_append_drop k.toNat (List.insertionSort countGE (counterItems ts))]
      at hwsorted
    have hsplit := List.pairwise_append.mp
      ((List.take_append_drop k.toNat
        (List.insertionSort countGE (counterItems ts))).symm ▸ hsorted)
    rcases List.mem_append.mp hwsorted with hin | hdrop
    · exact absurd (List.mem_map.mpr ⟨(w, ts.count w), hin, rfl⟩) hnot
    · exact hsplit.2.2 e he (w, ts.count w) hdrop

/-- Witness for C5 at a concrete input. -/
theorem most_common_spec_witness :
    ((0 : Int) ≤ 2)
    ∧ (most_common ["b", "a", "a"] 2).length =
        min (2 : Int).toNat (firstDedup ["b", "a", "a"]).length :=
  ⟨by decide, (most_common_spec ["b", "a", "a"] 2).2.1 (by decide)⟩

/-! ## Collocation scorer (source lines 184–190, via NLTK)

`finder = BigramCollocationFinder.from_words(no_stop)` builds `word_fd`
(every token counted once; `finder.N = word_fd.N()` is the total token
count) and `bigram_fd` (adjacent pairs).  When `min_freq = max(1,
args.min_freq) > 1`, `finder.apply_freq_filter(min_freq)` drops bigrams of
count `< min_freq`.  `finder.score_ngrams(bigram_measures.pmi)` scores each
remaining bigram `(w1, w2)` as `log2(n_ii * n_all) - log2(n_ix * n_xi)` and
returns `sorted(..., key=lambda t: (-t[1], t[0]))`.  The score stored here is
the exact rational argument `(n_ii * N) / (n_ix * n_xi)` of that `log2`;
sorting by descending score is sorting by descending argument. -/

/-- The adjacent bigrams of a token sequence (`L-1` positions). -/
def bigrams (ts : List String) : List (String × String) := ts.zip ts.tail

/-- The exact argument of `log2` in NLTK's `pmi` for bigram `q` of `ts`: the
rational `(count(q) * N) / (count(q.1) * count(q.2))` with `N` the total
token count. -/
def pmiArg (ts : List String) (q : String × String) : ℚ :=
  mkRat ((bigrams ts).count q * ts.length : Nat) (ts.count q.1 * ts.count q.2)

/-- Python string `<`: lexicographic comparison of code points. -/
def charsLt : List Char → List Char → Bool
  | [], [] => false
  | [], _ :: _ => true
  | _ :: _, [] => false
  | c :: cs, d :: ds => if c < d then true else if d < c then false else charsLt cs ds

/-- Python tuple `≤` on bigram pairs (first component first, strings by code
points): the tie-break of `sorted(..., key=lambda t: (-t[1], t[0]))`. -/
def strPairLE (p q : String × String) : Prop :=
  charsLt p.1.data q.1.data = true ∨
    (p.1 = q.1 ∧ (charsLt p.2.data q.2.data = true ∨ p.2 = q.2))

/-- Python's `sorted(..., key=lambda t: (-t[1], t[0]))` order: `a` may come
before `b`. -/
def keyLE (a b : (String × String) × ℚ) : Prop :=
  b.2 < a.2 ∨ (a.2 = b.2 ∧ strPairLE a.1 b.1)

instance : DecidableRel strPairLE := fun p q =>
  inferInstanceAs (Decidable (charsLt p.1.data q.1.data = true ∨
    (p.1 = q.1 ∧ (charsLt p.2.data q.2.data = true ∨ p.2 = q.2))))

instance : DecidableRel keyLE := fun a b =>
  inferInstanceAs (Decidable (b.2 < a.2 ∨ (a.2 = b.2 ∧ strPairLE a.1 b.1)))

theorem string_ext {a b : String} (h : a.data = b.data) : a = b := by
  cases a
  cases b
  exact congrArg String.mk h

theorem charsLt_trans : ∀ {a b c : List Char},
    charsLt a b = true → charsLt b c = true → charsLt a c = true := by
  intro a
  induction a with
  | nil =>
      intro b c h1 h2
      cases b with
      | nil => simp [charsLt] at h1
      | cons y ys =>
          cases c with
          | nil => simp [charsLt] at h2
          | cons z zs => rfl
  | cons x xs ih =>
      intro b c h1 h2
      cases b with
      | nil => simp [charsLt] at h1
      | cons y ys =>
          cases c with
          | nil => simp [charsLt] at h2
          | cons z zs =>
              simp only [charsLt] at h1 h2 ⊢
              rcases lt_trichotomy x y with hxy | rfl | hyx
              · rcases lt_trichotomy y z with hyz | rfl | hzy
                · rw [if_pos (lt_trans hxy hyz)]
                · rw [if_pos hxy]
                · rw [if_neg (lt_asymm hzy), if_pos hzy] at h2
                  simp at h2
              · rw [if_neg (lt_irrefl x), if_neg (lt_irrefl x)] at h1
                rcases lt_trichotomy x z with hxz | rfl | hzx
                · rw [if_pos hxz]
                · rw [if_neg (lt_irrefl x), if_neg (lt_irrefl x)] at h2 ⊢
                  exact ih h1 h2
                · rw [if_neg (lt_asymm hzx), if_pos hzx] at h2
                  simp at h2
              · rw [if_neg (lt_asymm hyx), if_pos hyx] at h1
                simp at h1

theorem charsLt_total : ∀ a b : List Char,
    charsLt a b = true ∨ a = b ∨ charsLt b a = true := by
  intro a
  induction a with
  | nil =>
      intro b
      cases b with
      | nil => exact Or.inr (Or.inl rfl)
      | cons d ds => exact Or.inl rfl
  | cons c cs ih =>
      intro b
      cases b with
      | nil => exact Or.inr (Or.inr rfl)
      | cons d ds =>
          rcases lt_trichotomy c d with hcd | rfl | hdc
          · exact Or.inl (by simp [charsLt, hcd])
          · rcases ih ds with h | rfl | h
            · exact Or.inl (by simp [charsLt, lt_irrefl, h])
            · exact Or.inr (Or.inl rfl)
            · exact Or.inr (Or.inr (by simp [charsLt, lt_irrefl, h]))
          · exact Or.inr (Or.inr (by simp [charsLt, hdc]))

theorem strPairLE_trans {p q r : String × String}
    (h1 : strPairLE p q) (h2 : strPairLE q r) : strPairLE p r := by
  rcases h1 with h1 | ⟨e1, hi1⟩
  · rcases h2 with h2 | ⟨e2, _⟩
    · exact Or.inl (charsLt_trans h1 h2)
    · refine Or.inl ?_
      rw [← e2]
      exact h1
  · rcases h2 with h2 | ⟨e2, hi2⟩
    · refine Or.inl ?_
      rw [e1]
      exact h2
    · refine Or.inr ⟨e1.trans e2, ?_⟩
      rcases hi1 with h1 | e1'
      · rcases hi2 with h2 | e2'
        · exact Or.inl (charsLt_trans h1 h2)
        · refine Or.inl ?_
          rw [← e2']
          exact h1
      · rcases hi2 with h2 | e2'
        · refine Or.inl ?_
          rw [e1']
          exact h2
        · exact Or.inr (e1'.trans e2')

theorem strPairLE_total (p q : String × String) : strPairLE p q ∨ strPairLE q p := by
  rcases charsLt_total p.1.data q.1.data with h | h | h
  · exact Or.inl (Or.inl h)
  · have e : p.1 = q.1 := string_ext h
    rcases charsLt_total p.2.data q.2.data with h2 | h2 | h2
    · exact Or.inl (Or.inr ⟨e, Or.inl h2⟩)
    · exact Or.inl (Or.inr ⟨e, Or.inr (string_ext h2)⟩)
    · exact Or.inr (Or.inr ⟨e.symm, Or.inl h2⟩)
  · exact Or.inr (Or.inl h)

instance : IsTotal ((String × String) × ℚ) keyLE :=
  ⟨fun a b => by
    rcases lt_trichotomy b.2 a.2 with h | h | h
    · exact Or.inl (Or.inl h)
    · rcases strPairLE_total a.1 b.1 with hp | hp
      · exact Or.inl (Or.inr ⟨h.symm, hp⟩)
      · exact Or.inr (Or.inr ⟨h, hp⟩)
    · exact Or.inr (Or.inl h)⟩

instance : IsTrans ((String × String) × ℚ) keyLE :=
  ⟨fun a b c h1 h2 => by
    rcases h1 with h1 | ⟨e1, hp1⟩
    · rcases h2 with h2 | ⟨e2, _⟩
      · exact Or.inl (lt_trans h2 h1)
      · refine Or.inl ?_
        rw [← e2]
        exact h1
    · rcases h2 with h2 | ⟨e2, hp2⟩
      · refine Or.inl ?_
        rw [e1]
        exact h2
      · exact Or.inr ⟨e1.trans e2, strPairLE_trans hp1 hp2⟩⟩

/-- `finder.score_ngrams(bigram_measures.pmi)` after the conditional
`apply_freq_filter`, as called in `main` (lines 184–189). -/
def score_ngrams (ts : List String) (min_freq : Int) : List ((String × String) × ℚ) :=
  let candidates := (bigrams ts).dedup
  let surviving :=
    if 1 < min_freq then
      candidates.filter (fun q => decide (min_freq ≤ ((bigrams ts).count q : Int)))
    else candidates
  List.insertionSort keyLE (surviving.map (fun q => (q, pmiArg ts q)))

/-- The scored list as `main` produces it: `min_freq = max(1, args.min_freq)`. -/
def main_scored (ts : List String) (min_freq_arg : Int) : List ((String × String) × ℚ) :=
  score_ngrams ts (max 1 min_freq_arg)

/-- C3: the scored bigrams are exactly the adjacent bigrams whose raw bigram
count is `≥ max(1, min_freq)` (the filter tests bigram counts), and fewer
than two tokens yield an empty result. -/
theorem main_scored_candidates (ts : List String) (mf : Int) :
    (∀ q : String × String,
      q ∈ (main_scored ts mf).map Prod.fst ↔
        q ∈ bigrams ts ∧ max 1 mf ≤ ((bigrams ts).count q : Int))
    ∧ (ts.length < 2 → main_scored ts mf = []) := by
  constructor
  · intro q
    simp only [main_scored, score_ngrams]
    rw [List.Perm.mem_iff ((List.perm_insertionSort keyLE _).map Prod.fst)]
    by_cases h : 1 < max 1 mf
    · rw [if_pos h]
      simp only [List.map_map, List.mem_map, Function.comp_apply]
      constructor
      · rintro ⟨r, hr, rfl⟩
        have hf := List.mem_filter.mp hr
        exact ⟨List.mem_dedup.mp hf.1, by simpa using hf.2⟩
      · rintro ⟨h1, h2⟩
        exact ⟨q, List.mem_filter.mpr ⟨List.mem_dedup.mpr h1, by simpa using h2⟩, rfl⟩
    · have hle : max 1 mf ≤ 1 := not_lt.mp h
      rw [if_neg h]
      simp only [List.map_map, List.mem_map, Function.comp_apply]
      constructor
      · rintro ⟨r, hr, rfl⟩
        have hmem := List.mem_dedup.mp hr
        have hcount : 0 < (bigrams ts).count r := List.count_pos_iff.mpr hmem
        exact ⟨hmem, le_trans hle (by omega)⟩
      · rintro ⟨h1, _⟩
        exact ⟨q, List.mem_dedup.mpr h1, rfl⟩
  · intro hlen
    have hbg : bigrams ts = [] := by
      unfold bigrams
      rcases ts with _ | ⟨a, _ | ⟨b, t⟩⟩
      · rfl
      · rfl
      · exact absurd hlen (by simp)
    simp only [main_scored, score_ngrams, hbg]
    by_cases h : 1 < max 1 mf <;> simp [h]

/-- Witness for C3 at a concrete input. -/
theorem main_scored_candidates_witness :
    ((["a"] : List String).length < 2) ∧ main_scored ["a"] 5 = [] :=
  ⟨by decide, (main_scored_candidates ["a"] 5).2 (by decide)⟩

/-- C2 (amended): the scored list (and any `topN` prefix of it) is sorted by
PMI descending; bigrams with exactly equal PMI appear in ascending
lexicographic (code-point) order of the pair `(w1, w2)` — NLTK's sort key is
`(-score, bigram)` — not in first-encounter order. -/
theorem score_ngrams_sorted (ts : List String) (mf : Int) (n : Nat) :
    ((score_ngrams ts mf).take n).Pairwise
      (fun a b => b.2 ≤ a.2 ∧ (a.2 = b.2 → strPairLE a.1 b.1)) := by
  have h : (score_ngrams ts mf).Pairwise keyLE := by
    simp only [score_ngrams]
    exact List.sorted_insertionSort keyLE _
  refine List.Pairwise.imp ?_ (List.Pairwise.sublist (List.take_sublist n _) h)
  intro a b hk
  rcases hk with hlt | ⟨heq, hpair⟩
  · refine ⟨le_of_lt hlt, fun he => ?_⟩
    rw [he] at hlt
    exact absurd hlt (lt_irrefl _)
  · exact ⟨le_of_eq heq.symm, fun _ => hpair⟩

/-- C2 as stated is false: in ["b","a","c","d"] with minFreq 1 all three
bigrams have equal PMI (argument 4), yet ("a","c") precedes ("b","a") in the
scored output although ("b","a") occurs first in the sequence — ties follow
pair lexicographic order, not first encounter. -/
theorem score_ngrams_tie_counterexample :
    (score_ngrams ["b", "a", "c", "d"] 1).map Prod.fst =
        [("a", "c"), ("b", "a"), ("c", "d")]
    ∧ (score_ngrams ["b", "a", "c", "d"] 1).map Prod.snd = [4, 4, 4]
    ∧ (bigrams ["b", "a", "c", "d"]).indexOf ("b", "a") <
        (bigrams ["b", "a", "c", "d"]).indexOf ("a", "c") := by
  refine ⟨?_, ?_, ?_⟩ <;> decide

/-- Division identity underlying the equivalence of NLTK's
`log2(n_ii * N) - log2(n_ix * n_xi)` with the probability form in which all
three probabilities are normalized by `N`. -/
theorem div_mul_div_ratio (x y z w : ℝ) :
    (x * w) / (y * z) = (x / w) / ((y / w) * (z / w)) := by
  rcases eq_or_ne w 0 with rfl | hw
  · simp
  · rcases eq_or_ne y 0 with rfl | hy
    · simp
    · rcases eq_or_ne z 0 with rfl | hz
      · simp
      · field_simp
        ring

/-- C1 as stated is false on its own boundary example: the code scores
("a","b") in ["a","b","a","b"] (minFreq 1) as `log2 2` — NLTK normalizes the
joint probability by the token count `N = 4`, not by `N_bigrams = 3` — which
differs from the claimed `log2((2/3)/((2/4)*(2/4))) = log2(8/3)`. -/
theorem pmi_formula_counterexample :
    (score_ngrams ["a", "b", "a", "b"] 1).lookup ("a", "b") = some 2
    ∧ Real.logb 2 ((2 : ℚ) : ℝ) ≠
        Real.logb 2 (((2 : ℝ) / 3) / ((2 / 4) * (2 / 4))) := by
  constructor
  · decide
  · have h283 : ((2 : ℝ) / 3) / ((2 / 4) * (2 / 4)) = 8 / 3 := by norm_num
    rw [h283]
    push_cast
    have h1 : Real.logb 2 2 < Real.logb 2 (8 / 3) :=
      Real.logb_lt_logb (by norm_num) (by norm_num) (by norm_num)
    exact ne_of_lt h1

/-- C1 (amended): every surviving bigram is scored
`PMI = log2(P(w1,w2) / (P(w1)·P(w2)))` where `P(w1,w2) = count(w1,w2) /
N_unigrams` and `P(w) = count(w) / N_unigrams`, with `N_unigrams` the total
token count used for the joint as well (NLTK's `n_all`); in particular for
["a","b","a","b"] with minFreq 1 the score of ("a","b") is
`log2((2/4)/((2/4)*(2/4))) = log2 2`. -/
theorem pmi_formula (ts : List String) (mf : Int) :
    (∀ e ∈ score_ngrams ts mf,
      Real.logb 2 (e.2 : ℝ) =
        Real.logb 2
          ((((bigrams ts).count e.1 : ℝ) / (ts.length : ℝ)) /
            (((ts.count e.1.1 : ℝ) / (ts.length : ℝ)) *
              ((ts.count e.1.2 : ℝ) / (ts.length : ℝ)))))
    ∧ (score_ngrams ["a", "b", "a", "b"] 1).lookup ("a", "b") = some 2
    ∧ Real.logb 2 ((2 : ℚ) : ℝ) =
        Real.logb 2 (((2 : ℝ) / 4) / ((2 / 4) * (2 / 4))) := by
  refine ⟨?_, by decide, by norm_num⟩
  intro e he
  have he2 : e.2 = pmiArg ts e.1 := by
    simp only [score_ngrams] at he
    have hmem := (List.perm_insertionSort keyLE _).subset he
    obtain ⟨r, _, rfl⟩ := List.mem_map.mp hmem
    rfl
  rw [he2]
  congr 1
  unfold pmiArg
  rw [Rat.mkRat_eq_div]
  push_cast
  exact div_mul_div_ratio _ _ _ _

/-- Witness for (the universally quantified part of) C1's amended theorem at
the concrete boundary input. -/
theorem pmi_formula_witness :
    ((("a", "b"), (2 : ℚ)) ∈ score_ngrams ["a", "b", "a", "b"] 1)
    ∧ Real.logb 2 ((2 : ℚ) : ℝ) =
        Real.logb 2
          ((((bigrams ["a", "b", "a", "b"]).count ("a", "b") : ℝ) /
              ((["a", "b", "a", "b"] : List String).length : ℝ)) /
            (((["a", "b", "a", "b"].count "a" : ℝ) /
                ((["a", "b", "a", "b"] : List String).length : ℝ)) *
              ((["a", "b", "a", "b"].count "b" : ℝ) /
                ((["a", "b", "a", "b"] : List String).length : ℝ)))) :=
  ⟨by decide, (pmi_formula ["a", "b", "a", "b"] 1).1 (("a", "b"), 2) (by decide)⟩

/-! ## Regex utilities (source lines 100–126)

`DATE_ISO = \b\d{4}-\d{2}-\d{2}\b`, `DATE_SL = \b\d{1,2}/\d{1,2}/\d{4}\b`
and `NUM_RE = \b\d+(?:\.\d+)?\b` are applied to the raw text with
`re.findall` / `re.finditer`: left-to-right scan, non-overlapping matches,
scanning resumes after each match.  The patterns are embedded as direct
matchers realising Python's semantics for these concrete regexes: greedy
quantifiers with exactly the backtracking these patterns admit (a digit run
can only end at a non-digit, so `\d+` never profitably backtracks;
`\d{1,2}` tries two digits, then one).

`re` consults the interpreter's Unicode character database for its classes:
`\d` is Unicode category Nd and the word characters of `\b` are the Unicode
alphanumerics plus underscore.  Those tables are runtime data of the Python
interpreter — an external resource like the NLTK lexicon — and are a
parameter `db : WordDB` here; the matchers read characters only through
`db`.  On ASCII the tables are fixed and documented: `\d` is `0-9` and the
word characters are `[A-Za-z0-9_]`; `asciiDB` realizes that behaviour and
the concrete test below assumes only it. -/

/-- The interpreter's character classification used by `re`:
`isDigit` is `\d` (Unicode category Nd), `isWord` the word characters of
`\b` (Unicode alphanumerics and underscore). -/
structure WordDB where
  isDigit : Char → Bool
  isWord : Char → Bool

/-- A character together with the two classifications the regex engine
looks up for it. -/
structure CChar where
  ch : Char
  isDigit : Bool
  isWord : Bool

/-- Pair a character with its classifications. -/
def classify (db : WordDB) (c : Char) : CChar := ⟨c, db.isDigit c, db.isWord c⟩

/-- The text as the regex engine sees it. -/
def classifyText (db : WordDB) (text : String) : List CChar :=
  text.data.map (classify db)

/-- A classification agreeing with Python's `\d` and `\b` on ASCII:
digits `0-9`, word characters `[A-Za-z0-9_]`. -/
def asciiDB : WordDB := ⟨Char.isDigit, fun c => c.isAlphanum || c == '_'⟩

/-- `\b` before a digit at the current position: holds iff the text starts
here or the previous character is not a word character. -/
def boundaryBefore (prev : Option CChar) : Bool :=
  match prev with
  | none => true
  | some t => ! t.isWord

/-- `\b` after a digit at the end of a candidate match: holds iff the text
ends or continues with a non-word character. -/
def boundaryAfter (rest : List CChar) : Bool :=
  match rest with
  | [] => true
  | t :: _ => ! t.isWord

/-- Consume exactly `n` digits (`\d{n}`). -/
def exactDigits : Nat → List CChar → Option (List CChar)
  | 0, l => some l
  | _ + 1, [] => none
  | n + 1, t :: l => if t.isDigit then exactDigits n l else none

/-- Length of the maximal digit run at the front (`\d+`, greedy). -/
def digitRun : List CChar → Nat
  | [] => 0
  | t :: l => if t.isDigit then digitRun l + 1 else 0

/-- Try `DATE_ISO` at the current position; returns the match length. -/
def tryISO (prev : Option CChar) (l : List CChar) : Option Nat :=
  if boundaryBefore prev then
    match exactDigits 4 l with
    | some (t1 :: r1) =>
        if t1.ch = '-' then
          match exactDigits 2 r1 with
          | some (t2 :: r2) =>
              if t2.ch = '-' then
                match exactDigits 2 r2 with
                | some r3 => if boundaryAfter r3 then some 10 else none
                | none => none
              else none
          | _ => none
        else none
    | _ => none
  else none

/-- `\d{1,2}/` greedily: two digits and a slash, else one digit and a slash;
returns the remaining text. -/
def digits12Slash : List CChar → Option (List CChar)
  | a :: b :: c :: rest =>
      if a.isDigit && b.isDigit && c.ch = '/' then some rest
      else if a.isDigit && b.ch = '/' then some (c :: rest)
      else none
  | a :: b :: rest => if a.isDigit && b.ch = '/' then some rest else none
  | _ => none

/-- Try `DATE_SL` at the current position; returns the match length. -/
def trySlash (prev : Option CChar) (l : List CChar) : Option Nat :=
  if boundaryBefore prev then
    match digits12Slash l with
    | some r1 =>
        match digits12Slash r1 with
        | some r2 =>
            match exactDigits 4 r2 with
            | some r3 =>
                if boundaryAfter r3 then
                  some (l.length - r3.length)
                else none
            | none => none
        | none => none
    | none => none
  else none

/-- Try `NUM_RE` at the current position; returns the match length.  The
trailing `\b` can only hold at the end of a maximal digit run, so a failed
boundary after the optional `.\d+` part falls back to the integer part
(the boundary at the `.` always holds), and a failed boundary after a bare
integer part kills the match. -/
def tryNUM (prev : Option CChar) (l : List CChar) : Option Nat :=
  if boundaryBefore prev then
    match digitRun l with
    | 0 => none
    | d1 + 1 =>
        match l.drop (d1 + 1) with
        | t :: r2 =>
            if t.ch = '.' then
              match digitRun r2 with
              | 0 => some (d1 + 1)
              | d2 + 1 =>
                  if boundaryAfter (r2.drop (d2 + 1)) then some (d1 + 1 + 1 + (d2 + 1))
                  else some (d1 + 1)
            else if boundaryAfter (t :: r2) then some (d1 + 1) else none
        | [] => some (d1 + 1)
  else none

/-- `re.finditer` driver: scan left to right; at a match of length `len`,
emit the span and the matched characters and resume after the match.  `fuel`
bounds the remaining steps (every step consumes at least one character). -/
def finditerAux (tryf : Option CChar → List CChar → Option Nat) :
    Nat → Option CChar → Nat → List CChar → List ((Nat × Nat) × List Char)
  | 0, _, _, _ => []
  | _ + 1, _, _, [] => []
  | fuel + 1, prev, pos, c :: rest =>
      match tryf prev (c :: rest) with
      | some len =>
          ((pos, pos + len), ((c :: rest).take len).map CChar.ch) ::
            finditerAux tryf fuel ((c :: rest).take len).getLast? (pos + len)
              ((c :: rest).drop len)
      | none => finditerAux tryf fuel (some c) (pos + 1) rest

/-- All matches of a pattern in a classified text, with spans. -/
def finditer (tryf : Option CChar → List CChar → Option Nat) (l : List CChar) :
    List ((Nat × Nat) × List Char) :=
  finditerAux tryf l.length none 0 l

/-- The `NUM_RE` matches over the raw text. -/
def numMatches (db : WordDB) (text : String) : List ((Nat × Nat) × List Char) :=
  finditer tryNUM (classifyText db text)

/-- `_find_spans(DATE_ISO, text) + _find_spans(DATE_SL, text)` (line 120). -/
def date_spans (db : WordDB) (text : String) : List (Nat × Nat) :=
  (finditer tryISO (classifyText db text)).map Prod.fst ++
    (finditer trySlash (classifyText db text)).map Prod.fst

/-- `extract_dates(text)`: ISO matches then slash matches (line 111). -/
def extract_dates (db : WordDB) (text : String) : List String :=
  (finditer tryISO (classifyText db text)).map (fun m => (⟨m.2⟩ : String)) ++
    (finditer trySlash (classifyText db text)).map (fun m => (⟨m.2⟩ : String))

/-- `extract_numbers_excluding_dates(text)` (lines 118–126). -/
def extract_numbers_excluding_dates (db : WordDB) (text : String) : List String :=
  ((numMatches db text).filter (fun m =>
      !(date_spans db text).any (fun sp => sp.1 ≤ m.1.1 && m.1.1 < sp.2))).map
    (fun m => (⟨m.2⟩ : String))

/-- C8: for every character classification (in particular the interpreter's
Unicode tables) and every raw text, the returned numbers are exactly the
`NUM_RE` matches whose start offset lies in no date span
(`dateStart ≤ start < dateEnd`); and whenever the classification has
Python's documented ASCII behaviour (`\d` is `0-9`, word characters are
`[A-Za-z0-9_]`), on "2025-09-09 and 120" the dates are ["2025-09-09"] and
the numbers excluding dates are exactly ["120"]. -/
theorem extract_numbers_excluding_dates_spec (db : WordDB) (text : String) :
    (∀ s : String, s ∈ extract_numbers_excluding_dates db text ↔
      ∃ m ∈ numMatches db text, s = (⟨m.2⟩ : String) ∧
        ∀ sp ∈ date_spans db text, ¬(sp.1 ≤ m.1.1 ∧ m.1.1 < sp.2))
    ∧ ((∀ c : Char, c.toNat < 128 →
          db.isDigit c = c.isDigit ∧ db.isWord c = (c.isAlphanum || c == '_')) →
        extract_dates db "2025-09-09 and 120" = ["2025-09-09"]
        ∧ extract_numbers_excluding_dates db "2025-09-09 and 120" = ["120"]) := by
  constructor
  · intro s
    unfold extract_numbers_excluding_dates
    simp only [List.mem_map, List.mem_filter, Bool.not_eq_true', List.any_eq_false,
      Bool.and_eq_true, decide_eq_true_eq, not_and]
    constructor
    · rintro ⟨m, ⟨hm, hf⟩, rfl⟩
      refine ⟨m, hm, rfl, ?_⟩
      intro sp hsp h1 h2
      exact absurd (hf sp hsp) (by simp [h1, h2])
    · rintro ⟨m, hm, rfl, hf⟩
      refine ⟨m, ⟨hm, ?_⟩, rfl⟩
      intro sp hsp
      by_cases h1 : sp.1 ≤ m.1.1
      · simp [h1, hf sp hsp h1]
      · simp [h1]
  · intro h
    have hmap : classifyText db "2025-09-09 and 120" =
        classifyText asciiDB "2025-09-09 and 120" := by
      unfold classifyText
      refine List.map_congr_left ?_
      intro c hc
      have hascii : c.toNat < 128 := by
        have hall : ∀ x ∈ ("2025-09-09 and 120" : String).data, x.toNat < 128 := by decide
        exact hall c hc
      have h1 := (h c hascii).1
      have h2 := (h c hascii).2
      simp [classify, asciiDB, h1, h2]
    constructor
    · unfold extract_dates
      rw [hmap]
      decide
    · unfold extract_numbers_excluding_dates numMatches date_spans
      rw [hmap]
      decide

/-- Witness for C8: the ASCII classification satisfies the hypothesis, and
the concrete extraction results follow. -/
theorem extract_numbers_excluding_dates_spec_witness :
    (∀ c : Char, c.toNat < 128 →
        asciiDB.isDigit c = c.isDigit ∧ asciiDB.isWord c = (c.isAlphanum || c == '_'))
    ∧ (extract_dates asciiDB "2025-09-09 and 120" = ["2025-09-09"]
        ∧ extract_numbers_excluding_dates asciiDB "2025-09-09 and 120" = ["120"]) :=
  ⟨fun _ _ => ⟨rfl, rfl⟩,
    (extract_numbers_excluding_dates_spec asciiDB "2025-09-09 and 120").2
      (fun _ _ => ⟨rfl, rfl⟩)⟩

end NlpArPrep
